import Mathlib

/-!
Verification of the forest data model of the `tree-challege` repository
(`src/node.rs`, `src/tree.rs`, `src/tree_store.rs`).

The Rust code stores nodes behind `Arc<Mutex<Node>>`; the `lookup` map of
`Tree` is the authoritative store, node ids are unique keys, and every shared
reference to a node is a reference to the node registered under its id.  The
shallow embedding therefore represents a node's `children: Vec<RcNodeRef>` as
the list of child node ids, and the `HashMap`s of `Tree` as association lists
(insertion-ordered; `HashMap` iteration order is unspecified in Rust, so only
order-independent facts, or facts whose order is forced, are proved about
iteration).  The mutation of a node through one alias is visible through all
aliases exactly as an update of the `lookup` entry under its id.
-/

set_option autoImplicit false

namespace TreeChallenge

/-- Association-list lookup, mirroring `HashMap::get` / `contains_key`. -/
def alLookup {α : Type} : List (Int × α) → Int → Option α
  | [], _ => none
  | (k, v) :: rest, key => if k = key then some v else alLookup rest key

/-- Association-list insert, mirroring `HashMap::insert`: overwrite the
existing entry for the key, or append a new entry. -/
def alInsert {α : Type} : List (Int × α) → Int → α → List (Int × α)
  | [], k, v => [(k, v)]
  | (k', v') :: rest, k, v =>
      if k' = k then (k, v) :: rest else (k', v') :: alInsert rest k v

/-- `node.rs`: `Node { id, label, children }`; `children: Vec<RcNodeRef>` is
embedded as the list of the child nodes' ids (ids are unique keys of
`lookup`, and every child reference is a reference to a registered node). -/
structure Node where
  id : Int
  label : String
  children : List Int
  deriving Repr, DecidableEq

/-- `Node::new(id, label)`: a node with no children. -/
def Node.new (id : Int) (label : String) : Node :=
  { id := id, label := label, children := [] }

/-- `Node::add_child`: push a child reference onto the children vector. -/
def Node.add_child (n : Node) (child : Int) : Node :=
  { n with children := n.children ++ [child] }

/-- `tree.rs`: the `Tree` struct (the spec's Forest). -/
structure Tree where
  next_id : Int
  lookup : List (Int × Node)
  child_to_parent : List (Int × Int)
  parent_to_child : List (Int × List Int)
  deriving Repr, DecidableEq

/-- `Tree::default()`: empty maps, `next_id = 1`. -/
def Tree.default : Tree :=
  { next_id := 1, lookup := [], child_to_parent := [], parent_to_child := [] }

/-- `tree.rs`: `AddNodeError { message }`. -/
structure AddNodeError where
  message : String
  deriving Repr, DecidableEq

/-- The self-parent error built at `tree.rs:60-63`. -/
def selfParentError (parent_id : Int) : AddNodeError :=
  ⟨s!"Cannot add connection, parent and child are the same node: {parent_id}"⟩

/-- The duplicate-parent error built at `tree.rs:67-70`. -/
def duplicateParentError (child_id : Int) : AddNodeError :=
  ⟨s!"Cannot add connection, child {child_id} already has a parent"⟩

/-- The unknown-parent error built at `tree.rs:76-79`. -/
def unknownParentError (parent_id : Int) : AddNodeError :=
  ⟨s!"Cannot add connection, parent {parent_id} does not exist"⟩

/-- `parent_to_child.entry(parent_id).or_insert(vec![]).push(child_id)`. -/
def p2cPush (m : List (Int × List Int)) (parent_id child_id : Int) :
    List (Int × List Int) :=
  alInsert m parent_id (((alLookup m parent_id).getD []) ++ [child_id])

/-- `self.lookup[&parent_id].lock().unwrap().add_child(child_ref)`: update the
node registered under `parent_id` by appending the child reference.  (The
branch for an absent key would panic in Rust; `add_edge` only reaches this
line after checking the key is present.) -/
def lookupAddChild (lk : List (Int × Node)) (parent_id child_id : Int) :
    List (Int × Node) :=
  match alLookup lk parent_id with
  | some nd => alInsert lk parent_id (nd.add_child child_id)
  | none => lk

/-- `Tree::add_edge` (`tree.rs:57-90`), with the `&mut self` threaded
explicitly: the returned tree is the state when the function returns, and
`some e` embeds `Err(e)`, `none` embeds `Ok(())`.  The child reference only
contributes its id (`child.id`). -/
def Tree.add_edge (t : Tree) (parent_id child_id : Int) :
    Tree × Option AddNodeError :=
  if parent_id = child_id then
    (t, some (selfParentError parent_id))
  else if (alLookup t.child_to_parent child_id).isSome then
    (t, some (duplicateParentError child_id))
  else if (alLookup t.lookup parent_id).isNone then
    (t, some (unknownParentError parent_id))
  else
    ({ t with
        child_to_parent := alInsert t.child_to_parent child_id parent_id,
        lookup := lookupAddChild t.lookup parent_id child_id,
        parent_to_child := p2cPush t.parent_to_child parent_id child_id },
     none)

/-- `Tree::add_node` (`tree.rs:42-55`): allocate `id = next_id`, build the
node, attempt the edge when a parent was requested (propagating its error
with the state it left), then register the node and advance the counter. -/
def Tree.add_node (t : Tree) (label : String) (parent_id : Option Int) :
    Tree × Except AddNodeError Node :=
  let id := t.next_id
  let node := Node.new id label
  match parent_id with
  | some pid =>
      match t.add_edge pid id with
      | (t', some e) => (t', Except.error e)
      | (t', none) =>
          ({ t' with lookup := alInsert t'.lookup id node, next_id := id + 1 },
           Except.ok node)
  | none =>
      ({ t with lookup := alInsert t.lookup id node, next_id := id + 1 },
       Except.ok node)

/-- `Tree::len` (`tree.rs:92-94`): number of keys of `lookup`. -/
def Tree.lenT (t : Tree) : Int :=
  (t.lookup.map Prod.fst).length

/-- `Tree::get_node` (`tree.rs:96-101`). -/
def Tree.get_node (t : Tree) (index : Int) : Option Node :=
  match alLookup t.lookup index with
  | some value => some value
  | none => none

/-- `impl From<&Tree> for Vec<Arc<Mutex<Node>>>` (`tree.rs:104-116`): collect
the keys of `lookup` with no entry in `child_to_parent` and map them to their
nodes.  (`value.lookup[id]` indexes a key known to be present; `filterMap`
never discards in that situation.) -/
def treeToVec (t : Tree) : List Node :=
  let root_ids :=
    (t.lookup.map Prod.fst).filter
      (fun key => !(alLookup t.child_to_parent key).isSome)
  root_ids.filterMap (fun id => alLookup t.lookup id)

/-- A request to the public interface: the arguments of one `add_node` call. -/
structure Request where
  label : String
  parent_id : Option Int
  deriving Repr, DecidableEq

/-- Run a sequence of `add_node` calls, collecting the ids returned by the
successful calls in order. -/
def run (t : Tree) : List Request → Tree × List Int
  | [] => (t, [])
  | r :: rest =>
      match t.add_node r.label r.parent_id with
      | (t', Except.ok node) =>
          let p := run t' rest
          (p.1, node.id :: p.2)
      | (t', Except.error _) => run t' rest

/-- The states produced by sequences of calls to the public interface
(`TreeStore::add_node`, which delegates to `Tree::add_node` under the write
lock), starting from `Tree::default()`. -/
inductive Reachable : Tree → Prop
  | init : Reachable Tree.default
  | step (t : Tree) (label : String) (parent_id : Option Int) :
      Reachable t → Reachable (t.add_node label parent_id).1

/-- `[a, a+1, ..., a+n-1]`. -/
def intRange (a : Int) : Nat → List Int
  | 0 => []
  | n + 1 => a :: intRange (a + 1) n

/-- The structural invariants of the forest (spec §3): `Inv t` holds of every
tree produced by a sequence of `add_node` calls from `Tree.default`.
`keys_eq`: the keys of `lookup` are exactly `1 .. next_id - 1`, in insertion
order.  `id_eq`: each node is registered under its own id.  `c2p_bounds`:
every recorded parent exists, is distinct from (indeed smaller than) its
child, and both are allocated ids.  `c2p_p2c` / `children_c2p`: the
`child_to_parent` map, the `parent_to_child` index and the nodes' `children`
lists record exactly the same edges. -/
structure Inv (t : Tree) : Prop where
  next_pos : 1 ≤ t.next_id
  keys_eq : t.lookup.map Prod.fst = intRange 1 (t.next_id - 1).toNat
  id_eq : ∀ i nd, alLookup t.lookup i = some nd → nd.id = i
  c2p_bounds : ∀ c p, alLookup t.child_to_parent c = some p →
      1 ≤ p ∧ p < c ∧ c < t.next_id
  c2p_p2c : ∀ c p, alLookup t.child_to_parent c = some p ↔
      c ∈ (alLookup t.parent_to_child p).getD []
  children_c2p : ∀ p nd, alLookup t.lookup p = some nd →
      ∀ c, c ∈ nd.children ↔ alLookup t.child_to_parent c = some p

/-- `p` holds a reference to `c` in its children list: one parent→child link
of the in-memory structure. -/
def childOf (t : Tree) (p c : Int) : Prop :=
  ∃ nd, alLookup t.lookup p = some nd ∧ c ∈ nd.children

/-- Reachability through `children` references. -/
inductive Reaches (t : Tree) : Int → Int → Prop
  | refl (x : Int) : Reaches t x x
  | step {r p c : Int} : Reaches t r p → childOf t p c → Reaches t r c

/-- A root: a registered node with no entry in `child_to_parent`. -/
def isRootId (t : Tree) (r : Int) : Prop :=
  r ∈ t.lookup.map Prod.fst ∧ alLookup t.child_to_parent r = none

/-- The ids the projection `treeToVec` walks over (`tree.rs:106-110`). -/
def rootIds (t : Tree) : List Int :=
  (t.lookup.map Prod.fst).filter (fun key => !(alLookup t.child_to_parent key).isSome)

/-- The nested node shape served to callers (spec §6): id, label, and
recursively the same shape for the children. -/
inductive NestedNode where
  | mk (id : Int) (label : String) (children : List NestedNode)
  deriving Repr

/-- Unfold the id-based children references of the embedding through
`lookup` into the nested shape; `fuel` bounds the depth (any fuel at least
the height of the tree yields the full nested tree). -/
def expand (t : Tree) : Nat → Int → NestedNode
  | 0, x => NestedNode.mk x "" []
  | fuel + 1, x =>
      match alLookup t.lookup x with
      | none => NestedNode.mk x "" []
      | some nd => NestedNode.mk x nd.label (nd.children.map (expand t fuel))

/-- `GetForest()` as served to the transport layer: the projection's roots,
each with its nested subtree. -/
def getForest (t : Tree) (fuel : Nat) : List NestedNode :=
  (treeToVec t).map (fun nd => expand t fuel nd.id)

/-- A reachable tree holding nodes 1 ("root"), 2 ("child" under 1) and
3 ("r2"): a concrete state for witnesses. -/
def demoTree : Tree :=
  (run Tree.default [⟨"root", none⟩, ⟨"child", some 1⟩, ⟨"r2", none⟩]).1

/-- A concrete request sequence whose middle call fails. -/
def demoReqs : List Request :=
  [⟨"root", none⟩, ⟨"bad", some 9⟩, ⟨"b", none⟩]

/-! ### Association-list lemmas -/

theorem alLookup_alInsert_self {α : Type} (l : List (Int × α)) (k : Int) (v : α) :
    alLookup (alInsert l k v) k = some v := by
  induction l with
  | nil => simp [alInsert, alLookup]
  | cons hd tl ih =>
      obtain ⟨k', v'⟩ := hd
      by_cases h : k' = k
      · simp [alInsert, alLookup, h]
      · simp [alInsert, alLookup, h, ih]

theorem alLookup_alInsert_ne {α : Type} (l : List (Int × α)) (k k' : Int) (v : α)
    (h : k' ≠ k) : alLookup (alInsert l k v) k' = alLookup l k' := by
  have h' : ¬ k = k' := fun hh => h hh.symm
  induction l with
  | nil => simp [alInsert, alLookup, h']
  | cons hd tl ih =>
      obtain ⟨k₀, v₀⟩ := hd
      by_cases h₀ : k₀ = k
      · subst h₀
        simp [alInsert, alLookup, h']
      · simp [alInsert, alLookup, h₀, ih]

theorem alLookup_isSome_iff {α : Type} (l : List (Int × α)) (k : Int) :
    (alLookup l k).isSome ↔ k ∈ l.map Prod.fst := by
  induction l with
  | nil => simp [alLookup]
  | cons hd tl ih =>
      obtain ⟨k₀, v₀⟩ := hd
      by_cases h : k₀ = k
      · subst h
        simp [alLookup]
      · have h' : ¬ k = k₀ := fun hh => h hh.symm
        simp [alLookup, h, h', ih]

theorem alLookup_eq_none_iff {α : Type} (l : List (Int × α)) (k : Int) :
    alLookup l k = none ↔ k ∉ l.map Prod.fst := by
  rw [← alLookup_isSome_iff]
  cases alLookup l k <;> simp

theorem map_fst_alInsert_of_mem {α : Type} (l : List (Int × α)) (k : Int) (v : α)
    (h : k ∈ l.map Prod.fst) :
    (alInsert l k v).map Prod.fst = l.map Prod.fst := by
  induction l with
  | nil => simp at h
  | cons hd tl ih =>
      obtain ⟨k₀, v₀⟩ := hd
      by_cases h₀ : k₀ = k
      · simp [alInsert, h₀]
      · simp only [List.map_cons, List.mem_cons] at h
        rcases h with h | h
        · exact absurd h.symm h₀
        · simp [alInsert, h₀, ih h]

theorem map_fst_alInsert_of_not_mem {α : Type} (l : List (Int × α)) (k : Int) (v : α)
    (h : k ∉ l.map Prod.fst) :
    (alInsert l k v).map Prod.fst = l.map Prod.fst ++ [k] := by
  induction l with
  | nil => simp [alInsert]
  | cons hd tl ih =>
      obtain ⟨k₀, v₀⟩ := hd
      simp only [List.map_cons, List.mem_cons] at h
      push_neg at h
      have h₀ : ¬ k₀ = k := fun hh => h.1 hh.symm
      simp [alInsert, h₀, ih h.2]

/-! ### Shape lemmas for `add_edge` and `add_node` -/

theorem add_edge_self (t : Tree) (p : Int) :
    t.add_edge p p = (t, some (selfParentError p)) := by
  simp [Tree.add_edge]

theorem add_edge_dup (t : Tree) (p c : Int) (hpc : p ≠ c)
    (h : (alLookup t.child_to_parent c).isSome) :
    t.add_edge p c = (t, some (duplicateParentError c)) := by
  simp [Tree.add_edge, hpc, h]

theorem add_edge_unknown (t : Tree) (p c : Int) (hpc : p ≠ c)
    (h : alLookup t.child_to_parent c = none)
    (hp : alLookup t.lookup p = none) :
    t.add_edge p c = (t, some (unknownParentError p)) := by
  simp [Tree.add_edge, hpc, h, hp]

theorem add_edge_ok (t : Tree) (p c : Int) (hpc : p ≠ c)
    (h : alLookup t.child_to_parent c = none)
    (hp : (alLookup t.lookup p).isSome) :
    t.add_edge p c =
      ({ t with
          child_to_parent := alInsert t.child_to_parent c p,
          lookup := lookupAddChild t.lookup p c,
          parent_to_child := p2cPush t.parent_to_child p c }, none) := by
  have hp' : ¬ (alLookup t.lookup p).isNone := by
    cases hh : alLookup t.lookup p <;> simp_all
  simp [Tree.add_edge, hpc, h, hp']

theorem add_edge_err_state (t : Tree) (p c : Int) (t' : Tree) (e : AddNodeError)
    (h : t.add_edge p c = (t', some e)) : t' = t := by
  unfold Tree.add_edge at h
  split at h
  · injection h with h1 h2
    exact h1.symm
  · split at h
    · injection h with h1 h2
      exact h1.symm
    · split at h
      · injection h with h1 h2
        exact h1.symm
      · injection h with h1 h2
        cases h2

theorem add_node_none_eq (t : Tree) (label : String) :
    t.add_node label none =
      ({ t with
          lookup := alInsert t.lookup t.next_id (Node.new t.next_id label),
          next_id := t.next_id + 1 },
       Except.ok (Node.new t.next_id label)) := rfl

theorem add_node_some_of_edge_err (t : Tree) (label : String) (pid : Int)
    (t' : Tree) (e : AddNodeError) (h : t.add_edge pid t.next_id = (t', some e)) :
    t.add_node label (some pid) = (t', Except.error e) := by
  simp [Tree.add_node, h]

theorem add_node_some_of_edge_ok (t : Tree) (label : String) (pid : Int)
    (t' : Tree) (h : t.add_edge pid t.next_id = (t', none)) :
    t.add_node label (some pid) =
      ({ t' with
          lookup := alInsert t'.lookup t.next_id (Node.new t.next_id label),
          next_id := t.next_id + 1 },
       Except.ok (Node.new t.next_id label)) := by
  simp [Tree.add_node, h]

theorem add_node_err_state (t : Tree) (label : String) (pid : Option Int)
    (t' : Tree) (e : AddNodeError)
    (h : t.add_node label pid = (t', Except.error e)) : t' = t := by
  match pid with
  | none => simp [Tree.add_node] at h
  | some p =>
      unfold Tree.add_node at h
      simp only at h
      rcases he : t.add_edge p t.next_id with ⟨t₀, r⟩
      rw [he] at h
      cases r with
      | none => simp at h
      | some e₀ =>
          simp only [Prod.mk.injEq, Except.error.injEq] at h
          exact h.1 ▸ add_edge_err_state t p t.next_id t₀ e₀ he

theorem add_node_ok_facts (t : Tree) (label : String) (pid : Option Int)
    (t' : Tree) (nd : Node) (h : t.add_node label pid = (t', Except.ok nd)) :
    nd = Node.new t.next_id label ∧ t'.next_id = t.next_id + 1 := by
  match pid with
  | none =>
      rw [add_node_none_eq] at h
      obtain ⟨h1, h2⟩ := Prod.mk.injEq .. ▸ h
      refine ⟨(Except.ok.injEq .. ▸ h2).symm, ?_⟩
      rw [← h1]
  | some p =>
      unfold Tree.add_node at h
      simp only at h
      rcases he : t.add_edge p t.next_id with ⟨t₀, r⟩
      rw [he] at h
      cases r with
      | none =>
          simp only [Prod.mk.injEq, Except.ok.injEq] at h
          exact ⟨h.2.symm, by rw [← h.1]⟩
      | some e₀ => simp at h

/-! ### `intRange` and `run` lemmas -/

theorem length_intRange (n : Nat) : ∀ a : Int, (intRange a n).length = n := by
  induction n with
  | zero => intro a; rfl
  | succ m ih => intro a; simp [intRange, ih]

theorem intRange_snoc (n : Nat) : ∀ a : Int,
    intRange a (n + 1) = intRange a n ++ [a + (n : Int)] := by
  induction n with
  | zero => intro a; simp [intRange]
  | succ m ih =>
      intro a
      have he : a + 1 + (m : Int) = a + ((m + 1 : Nat) : Int) := by push_cast; ring
      show a :: intRange (a + 1) (m + 1)
          = (a :: intRange (a + 1) m) ++ [a + ((m + 1 : Nat) : Int)]
      rw [ih (a + 1), he, List.cons_append]

theorem mem_intRange (n : Nat) : ∀ (a k : Int),
    k ∈ intRange a n ↔ a ≤ k ∧ k < a + (n : Int) := by
  induction n with
  | zero =>
      intro a k
      rw [intRange]
      simp only [List.mem_nil_iff, false_iff, not_and, not_lt, Nat.cast_zero, add_zero]
      intro h
      exact h
  | succ m ih =>
      intro a k
      rw [intRange]
      simp only [List.mem_cons, ih (a + 1) k]
      push_cast
      omega

theorem run_ids (reqs : List Request) : ∀ t : Tree,
    (run t reqs).2 = intRange t.next_id ((run t reqs).2.length)
    ∧ (run t reqs).1.next_id = t.next_id + (((run t reqs).2.length : Nat) : Int) := by
  induction reqs with
  | nil => intro t; simp [run, intRange]
  | cons r rest ih =>
      intro t
      rcases h : t.add_node r.label r.parent_id with ⟨t', res⟩
      cases res with
      | error e =>
          have ht : t' = t := add_node_err_state _ _ _ _ _ h
          have hrun : run t (r :: rest) = run t' rest := by
            simp only [run]
            rw [h]
          rw [hrun, ht]
          exact ih t
      | ok nd =>
          obtain ⟨hnd, hnext⟩ := add_node_ok_facts _ _ _ _ _ h
          have hrun : run t (r :: rest) = ((run t' rest).1, nd.id :: (run t' rest).2) := by
            simp only [run]
            rw [h]
          obtain ⟨ih1, ih2⟩ := ih t'
          rw [hrun]
          have hid : nd.id = t.next_id := by rw [hnd]; rfl
          constructor
          · simp only [List.length_cons, intRange, hid]
            exact congrArg (t.next_id :: ·) (by rw [← hnext]; exact ih1)
          · simp only [List.length_cons]
            rw [ih2, hnext]
            push_cast
            ring

/-! ### The reachability invariant -/

theorem Inv.key_mem_iff {t : Tree} (hI : Inv t) (i : Int) :
    i ∈ t.lookup.map Prod.fst ↔ 1 ≤ i ∧ i < t.next_id := by
  rw [hI.keys_eq, mem_intRange]
  have h := hI.next_pos
  omega

theorem Inv.next_not_key {t : Tree} (hI : Inv t) :
    t.next_id ∉ t.lookup.map Prod.fst := by
  intro hmem
  have := (hI.key_mem_iff _).mp hmem
  omega

theorem Inv.next_lookup_none {t : Tree} (hI : Inv t) :
    alLookup t.lookup t.next_id = none :=
  (alLookup_eq_none_iff _ _).mpr hI.next_not_key

theorem Inv.c2p_next_none {t : Tree} (hI : Inv t) :
    alLookup t.child_to_parent t.next_id = none := by
  cases h : alLookup t.child_to_parent t.next_id with
  | none => rfl
  | some p => exact absurd (hI.c2p_bounds _ _ h) (by omega)

theorem Inv.key_lookup_isSome {t : Tree} (hI : Inv t) (i : Int)
    (h1 : 1 ≤ i) (h2 : i < t.next_id) : (alLookup t.lookup i).isSome := by
  rw [alLookup_isSome_iff]
  exact (hI.key_mem_iff i).mpr ⟨h1, h2⟩

theorem inv_default : Inv Tree.default := by
  refine ⟨le_refl 1, rfl, ?_, ?_, ?_, ?_⟩
  · intro i nd h
    cases h
  · intro c p h
    cases h
  · intro c p
    simp [Tree.default, alLookup]
  · intro p nd h
    cases h

/-- Facts about `lookupAddChild`. -/
theorem lac_map_fst (lk : List (Int × Node)) (p c : Int) :
    (lookupAddChild lk p c).map Prod.fst = lk.map Prod.fst := by
  unfold lookupAddChild
  cases h : alLookup lk p with
  | none => rfl
  | some nd =>
      exact map_fst_alInsert_of_mem _ _ _
        ((alLookup_isSome_iff _ _).mp (by rw [h]; rfl))

theorem lac_lookup_self (lk : List (Int × Node)) (p c : Int) (nd : Node)
    (h : alLookup lk p = some nd) :
    alLookup (lookupAddChild lk p c) p = some (nd.add_child c) := by
  unfold lookupAddChild
  rw [h]
  exact alLookup_alInsert_self _ _ _

theorem lac_lookup_ne (lk : List (Int × Node)) (p c q : Int) (h : q ≠ p) :
    alLookup (lookupAddChild lk p c) q = alLookup lk q := by
  unfold lookupAddChild
  cases hp : alLookup lk p with
  | none => rfl
  | some nd => exact alLookup_alInsert_ne _ _ _ _ h

theorem p2cPush_self (m : List (Int × List Int)) (p c : Int) :
    alLookup (p2cPush m p c) p = some (((alLookup m p).getD []) ++ [c]) :=
  alLookup_alInsert_self _ _ _

theorem p2cPush_ne (m : List (Int × List Int)) (p c q : Int) (h : q ≠ p) :
    alLookup (p2cPush m p c) q = alLookup m q :=
  alLookup_alInsert_ne _ _ _ _ h

theorem keys_snoc_next {t : Tree} (hI : Inv t) :
    t.lookup.map Prod.fst ++ [t.next_id] = intRange 1 (t.next_id + 1 - 1).toNat := by
  rw [hI.keys_eq]
  have h := hI.next_pos
  have h1 : (t.next_id + 1 - 1).toNat = (t.next_id - 1).toNat + 1 := by omega
  have h2 : (1 : Int) + (((t.next_id - 1).toNat : Nat) : Int) = t.next_id := by omega
  rw [h1, intRange_snoc, h2]

theorem inv_add_node_none (t : Tree) (label : String) (hI : Inv t) :
    Inv (t.add_node label none).1 := by
  rw [add_node_none_eq]
  refine ⟨?_, ?_, ?_, ?_, ?_, ?_⟩
  · show 1 ≤ t.next_id + 1
    have := hI.next_pos
    omega
  · show (alInsert t.lookup t.next_id (Node.new t.next_id label)).map Prod.fst
        = intRange 1 (t.next_id + 1 - 1).toNat
    rw [map_fst_alInsert_of_not_mem _ _ _ hI.next_not_key]
    exact keys_snoc_next hI
  · intro i nd h
    by_cases hiN : i = t.next_id
    · subst hiN
      rw [alLookup_alInsert_self] at h
      injection h with h
      rw [← h]
      rfl
    · rw [alLookup_alInsert_ne _ _ _ _ hiN] at h
      exact hI.id_eq i nd h
  · intro c p h
    have := hI.c2p_bounds c p h
    show 1 ≤ p ∧ p < c ∧ c < t.next_id + 1
    omega
  · intro c p
    exact hI.c2p_p2c c p
  · intro p nd h c
    by_cases hpN : p = t.next_id
    · subst hpN
      rw [alLookup_alInsert_self] at h
      injection h with h
      rw [← h]
      constructor
      · intro hc
        exact absurd hc (List.not_mem_nil c)
      · intro hc
        exact absurd (hI.c2p_bounds _ _ hc) (by omega)
    · rw [alLookup_alInsert_ne _ _ _ _ hpN] at h
      exact hI.children_c2p p nd h c

theorem inv_edge_ok_state (t : Tree) (label : String) (p : Int) (hI : Inv t)
    (hpN : p ≠ t.next_id) (hp1 : 1 ≤ p) (hp2 : p < t.next_id) :
    Inv { next_id := t.next_id + 1,
          lookup := alInsert (lookupAddChild t.lookup p t.next_id) t.next_id
                      (Node.new t.next_id label),
          child_to_parent := alInsert t.child_to_parent t.next_id p,
          parent_to_child := p2cPush t.parent_to_child p t.next_id } := by
  obtain ⟨pnd, hpnd⟩ := Option.isSome_iff_exists.mp (hI.key_lookup_isSome p hp1 hp2)
  have hcpN : alLookup t.child_to_parent t.next_id = none := hI.c2p_next_none
  have hNnotp2c : ∀ q, t.next_id ∉ (alLookup t.parent_to_child q).getD [] := by
    intro q hmem
    have := (hI.c2p_p2c t.next_id q).mpr hmem
    rw [hcpN] at this
    cases this
  refine ⟨?_, ?_, ?_, ?_, ?_, ?_⟩
  · show 1 ≤ t.next_id + 1
    have := hI.next_pos
    omega
  · show (alInsert (lookupAddChild t.lookup p t.next_id) t.next_id
        (Node.new t.next_id label)).map Prod.fst = intRange 1 (t.next_id + 1 - 1).toNat
    rw [map_fst_alInsert_of_not_mem _ _ _ (by rw [lac_map_fst]; exact hI.next_not_key)]
    rw [lac_map_fst]
    exact keys_snoc_next hI
  · intro i nd h
    by_cases hiN : i = t.next_id
    · subst hiN
      rw [alLookup_alInsert_self] at h
      injection h with h
      rw [← h]
      rfl
    · rw [alLookup_alInsert_ne _ _ _ _ hiN] at h
      by_cases hip : i = p
      · subst hip
        rw [lac_lookup_self _ _ _ _ hpnd] at h
        injection h with h
        rw [← h]
        exact hI.id_eq i pnd hpnd
      · rw [lac_lookup_ne _ _ _ _ hip] at h
        exact hI.id_eq i nd h
  · intro c q h
    show 1 ≤ q ∧ q < c ∧ c < t.next_id + 1
    by_cases hcN : c = t.next_id
    · subst hcN
      rw [alLookup_alInsert_self] at h
      injection h with h
      subst h
      omega
    · rw [alLookup_alInsert_ne _ _ _ _ hcN] at h
      have := hI.c2p_bounds c q h
      omega
  · intro c q
    by_cases hcN : c = t.next_id
    · subst hcN
      rw [alLookup_alInsert_self]
      by_cases hqp : q = p
      · subst hqp
        rw [p2cPush_self]
        simp
      · rw [p2cPush_ne _ _ _ _ hqp]
        constructor
        · intro h
          injection h with h
          exact absurd h.symm hqp
        · intro h
          exact absurd h (hNnotp2c q)
    · rw [alLookup_alInsert_ne _ _ _ _ hcN]
      by_cases hqp : q = p
      · subst hqp
        rw [p2cPush_self]
        simp only [Option.getD_some, List.mem_append, List.mem_singleton]
        rw [hI.c2p_p2c c q]
        constructor
        · intro h
          exact Or.inl h
        · intro h
          rcases h with h | h
          · exact h
          · exact absurd h hcN
      · rw [p2cPush_ne _ _ _ _ hqp]
        exact hI.c2p_p2c c q
  · intro q nd h c
    by_cases hqN : q = t.next_id
    · subst hqN
      rw [alLookup_alInsert_self] at h
      injection h with h
      rw [← h]
      constructor
      · intro hc
        exact absurd hc (List.not_mem_nil c)
      · intro hc
        by_cases hcN : c = t.next_id
        · subst hcN
          rw [alLookup_alInsert_self] at hc
          injection hc with hc
          exact absurd hc hpN
        · rw [alLookup_alInsert_ne _ _ _ _ hcN] at hc
          exact absurd (hI.c2p_bounds _ _ hc) (by omega)
    · rw [alLookup_alInsert_ne _ _ _ _ hqN] at h
      by_cases hqp : q = p
      · subst hqp
        rw [lac_lookup_self _ _ _ _ hpnd] at h
        injection h with h
        rw [← h]
        show c ∈ pnd.children ++ [t.next_id] ↔ _
        by_cases hcN : c = t.next_id
        · subst hcN
          rw [alLookup_alInsert_self]
          simp
        · rw [alLookup_alInsert_ne _ _ _ _ hcN]
          simp only [List.mem_append, List.mem_singleton, hcN, or_false]
          exact hI.children_c2p q pnd hpnd c
      · rw [lac_lookup_ne _ _ _ _ hqp] at h
        by_cases hcN : c = t.next_id
        · subst hcN
          rw [alLookup_alInsert_self]
          constructor
          · intro hc
            have := (hI.children_c2p q nd h _).mp hc
            rw [hcpN] at this
            cases this
          · intro hc
            injection hc with hc
            exact absurd hc.symm hqp
        · rw [alLookup_alInsert_ne _ _ _ _ hcN]
          exact hI.children_c2p q nd h c

theorem inv_add_node (t : Tree) (label : String) (pid : Option Int) (hI : Inv t) :
    Inv (t.add_node label pid).1 := by
  match pid with
  | none => exact inv_add_node_none t label hI
  | some p =>
      by_cases hpN : p = t.next_id
      · subst hpN
        rw [add_node_some_of_edge_err t label _ t _ (add_edge_self t t.next_id)]
        exact hI
      · cases hp : alLookup t.lookup p with
        | none =>
            rw [add_node_some_of_edge_err t label p t _
              (add_edge_unknown t p t.next_id hpN hI.c2p_next_none hp)]
            exact hI
        | some pnd =>
            have hps : (alLookup t.lookup p).isSome := by rw [hp]; rfl
            have hedge := add_edge_ok t p t.next_id hpN hI.c2p_next_none hps
            rw [add_node_some_of_edge_ok t label p _ hedge]
            have hb := (hI.key_mem_iff p).mp ((alLookup_isSome_iff _ _).mp hps)
            exact inv_edge_ok_state t label p hI hpN hb.1 hb.2

theorem reachable_inv {t : Tree} (h : Reachable t) : Inv t := by
  induction h with
  | init => exact inv_default
  | step t label pid _ ih => exact inv_add_node t label pid ih

/-! ### Claim theorems: C2, C3, C4, C5 -/

/-- C2. Monotonic ids: over any sequence of `add_node` calls from the default
tree, the ids returned by the successful calls are exactly `1, 2, 3, …` in
call order, and a call that returns an error does not advance `next_id` (so
the next successful call receives the id the failed call would have). -/
theorem monotonic_ids (reqs : List Request) (t : Tree) (label : String)
    (pid : Option Int) (e : AddNodeError)
    (h : (t.add_node label pid).2 = Except.error e) :
    (run Tree.default reqs).2 = intRange 1 ((run Tree.default reqs).2.length)
    ∧ (t.add_node label pid).1.next_id = t.next_id := by
  constructor
  · exact (run_ids reqs Tree.default).1
  · have h1 : t.add_node label pid = ((t.add_node label pid).1, Except.error e) := by
      rw [← h]
    exact congrArg Tree.next_id (add_node_err_state _ _ _ _ _ h1)

theorem monotonic_ids_witness :
    (run Tree.default demoReqs).2 = intRange 1 ((run Tree.default demoReqs).2.length)
    ∧ (Tree.default.add_node "bad" (some 9)).1.next_id = Tree.default.next_id :=
  monotonic_ids demoReqs Tree.default "bad" (some 9) (unknownParentError 9) (by rfl)

/-- C3. Error atomicity: whenever `add_node` (or the internal `add_edge`)
returns an error, the whole `Tree` state — `lookup`, `child_to_parent`,
`parent_to_child` and (inside `lookup`) every node's children list — is
exactly the state before the call. -/
theorem error_atomicity (t t₁ t₂ : Tree) (label : String) (pid : Option Int)
    (p c : Int) (e₁ e₂ : AddNodeError)
    (h₁ : t.add_node label pid = (t₁, Except.error e₁))
    (h₂ : t.add_edge p c = (t₂, some e₂)) :
    t₁ = t ∧ t₂ = t :=
  ⟨add_node_err_state t label pid t₁ e₁ h₁, add_edge_err_state t p c t₂ e₂ h₂⟩

theorem error_atomicity_witness : Tree.default = Tree.default ∧ Tree.default = Tree.default :=
  error_atomicity Tree.default Tree.default Tree.default "x" (some 9) 5 1
    (unknownParentError 9) (unknownParentError 5) (by rfl) (by rfl)

/-- C4. Single parent: if node `c` already has parent `p` in
`child_to_parent`, then `add_edge` under any parent id `q ≠ p` returns an
error, leaves the state unchanged, and `child_to_parent[c]` is still `p`. -/
theorem single_parent_enforced (t : Tree) (c p q : Int)
    (hcp : alLookup t.child_to_parent c = some p) (_hq : q ≠ p) :
    (t.add_edge q c).1 = t ∧ (t.add_edge q c).2.isSome
    ∧ alLookup (t.add_edge q c).1.child_to_parent c = some p := by
  by_cases hqc : q = c
  · subst hqc
    rw [add_edge_self]
    exact ⟨rfl, rfl, hcp⟩
  · rw [add_edge_dup t q c hqc (by rw [hcp]; rfl)]
    exact ⟨rfl, rfl, hcp⟩

theorem single_parent_enforced_witness :
    (demoTree.add_edge 3 2).1 = demoTree ∧ (demoTree.add_edge 3 2).2.isSome
    ∧ alLookup (demoTree.add_edge 3 2).1.child_to_parent 2 = some 1 :=
  single_parent_enforced demoTree 2 1 3 (by rfl) (by decide)

/-- C5. Self-parent rejection: `add_node` with `parent_id` equal to the id
that would be assigned (`next_id`) fails with the self-parent error and the
forest size `len` is unchanged. -/
theorem self_parent_rejected (t : Tree) (label : String) :
    t.add_node label (some t.next_id) = (t, Except.error (selfParentError t.next_id))
    ∧ (t.add_node label (some t.next_id)).1.lenT = t.lenT := by
  have h := add_node_some_of_edge_err t label t.next_id t (selfParentError t.next_id)
    (add_edge_self t t.next_id)
  exact ⟨h, by rw [h]⟩

/-! ### Reachability of `run` results -/

theorem run_fst_step (t : Tree) (r : Request) (rest : List Request) :
    (run t (r :: rest)).1 = (run (t.add_node r.label r.parent_id).1 rest).1 := by
  rcases h : t.add_node r.label r.parent_id with ⟨t', res⟩
  cases res with
  | ok nd =>
      have hrun : run t (r :: rest) = ((run t' rest).1, nd.id :: (run t' rest).2) := by
        simp only [run]
        rw [h]
      rw [hrun]
  | error e =>
      have hrun : run t (r :: rest) = run t' rest := by
        simp only [run]
        rw [h]
      rw [hrun]

theorem run_reachable (reqs : List Request) : ∀ t : Tree,
    Reachable t → Reachable (run t reqs).1 := by
  induction reqs with
  | nil =>
      intro t h
      exact h
  | cons r rest ih =>
      intro t h
      rw [run_fst_step]
      exact ih _ (Reachable.step t r.label r.parent_id h)

/-! ### Roots, reachability and the partition -/

theorem childOf_iff {t : Tree} (hI : Inv t) (p c : Int) :
    childOf t p c ↔ alLookup t.child_to_parent c = some p := by
  constructor
  · rintro ⟨nd, hnd, hc⟩
    exact (hI.children_c2p p nd hnd c).mp hc
  · intro h
    have hb := hI.c2p_bounds c p h
    obtain ⟨nd, hnd⟩ := Option.isSome_iff_exists.mp
      (hI.key_lookup_isSome p hb.1 (hb.2.1.trans hb.2.2))
    exact ⟨nd, hnd, (hI.children_c2p p nd hnd c).mpr h⟩

theorem childOf_lt {t : Tree} (hI : Inv t) (p c : Int) (h : childOf t p c) :
    p < c :=
  (hI.c2p_bounds c p ((childOf_iff hI p c).mp h)).2.1

theorem reaches_le {t : Tree} (hI : Inv t) {r x : Int} (h : Reaches t r x) :
    r ≤ x := by
  induction h with
  | refl => exact le_refl _
  | step hre hco ih => exact le_of_lt (lt_of_le_of_lt ih (childOf_lt hI _ _ hco))

theorem root_exists {t : Tree} (hI : Inv t) : ∀ (n : Nat) (x : Int),
    x.toNat ≤ n → x ∈ t.lookup.map Prod.fst →
    ∃ r, isRootId t r ∧ Reaches t r x := by
  intro n
  induction n with
  | zero =>
      intro x hxn hxk
      have := (hI.key_mem_iff x).mp hxk
      omega
  | succ m ih =>
      intro x hxn hxk
      cases hc : alLookup t.child_to_parent x with
      | none => exact ⟨x, ⟨hxk, hc⟩, Reaches.refl x⟩
      | some p =>
          have hb := hI.c2p_bounds x p hc
          have hxb := (hI.key_mem_iff x).mp hxk
          have hpk : p ∈ t.lookup.map Prod.fst :=
            (hI.key_mem_iff p).mpr ⟨hb.1, by omega⟩
          obtain ⟨r, hr, hre⟩ := ih p (by omega) hpk
          exact ⟨r, hr, Reaches.step hre ((childOf_iff hI p x).mpr hc)⟩

theorem reaches_root_of_none {t : Tree} (hI : Inv t) {r z : Int}
    (h : Reaches t r z) : alLookup t.child_to_parent z = none → r = z := by
  induction h with
  | refl => intro _; rfl
  | step hre hco ih =>
      intro hnone
      have hc := (childOf_iff hI _ _).mp hco
      rw [hnone] at hc
      cases hc

theorem root_unique {t : Tree} (hI : Inv t) : ∀ (r x : Int), Reaches t r x →
    isRootId t r → ∀ r', Reaches t r' x → isRootId t r' → r = r' := by
  intro r x h
  induction h with
  | refl =>
      intro hr r' h' hr'
      exact (reaches_root_of_none hI h' hr.2).symm
  | step hre hco ih =>
      intro hr r' h' hr'
      have hc2p := (childOf_iff hI _ _).mp hco
      cases h' with
      | refl =>
          rw [hr'.2] at hc2p
          cases hc2p
      | step hre' hco' =>
          have hq := (childOf_iff hI _ _).mp hco'
          rw [hc2p] at hq
          injection hq with hq
          subst hq
          exact ih hr r' hre' hr'

theorem filterMap_lookup_ids (lk : List (Int × Node)) :
    ∀ ks : List Int, (∀ k ∈ ks, ∃ nd, alLookup lk k = some nd ∧ nd.id = k) →
    ((ks.filterMap (fun id => alLookup lk id)).map Node.id) = ks := by
  intro ks
  induction ks with
  | nil => intro _; rfl
  | cons k rest ih =>
      intro h
      obtain ⟨nd, hnd, hid⟩ := h k (List.mem_cons_self _ _)
      simp only [List.filterMap_cons, hnd, List.map_cons, hid]
      rw [ih (fun k' hk' => h k' (List.mem_cons_of_mem _ hk'))]

theorem treeToVec_ids {t : Tree} (hI : Inv t) :
    (treeToVec t).map Node.id = rootIds t := by
  unfold treeToVec rootIds
  apply filterMap_lookup_ids
  intro k hk
  have hkk : k ∈ t.lookup.map Prod.fst := List.mem_of_mem_filter hk
  obtain ⟨nd, hnd⟩ := Option.isSome_iff_exists.mp ((alLookup_isSome_iff _ _).mpr hkk)
  exact ⟨nd, hnd, hI.id_eq k nd hnd⟩

theorem get_node_eq (t : Tree) (i : Int) : t.get_node i = alLookup t.lookup i := by
  unfold Tree.get_node
  cases alLookup t.lookup i <;> rfl

theorem mem_rootIds_iff (t : Tree) (r : Int) :
    r ∈ rootIds t ↔ isRootId t r := by
  unfold rootIds isRootId
  rw [List.mem_filter]
  apply and_congr_right
  intro _
  cases alLookup t.child_to_parent r <;> simp

/-! ### Claim theorems: C1, C6, C7, C8, C9, C10 -/

/-- C1. Root partition: in every state reachable through the public
interface, the projection's ids are exactly the root ids (nodes with no
entry in `child_to_parent`); every id present in `lookup` is reachable
through `children` links from exactly one of them; and the reference
structure is acyclic (no `children` path returns to an ancestor). -/
theorem root_partition (t : Tree) (x p : Int) (hR : Reachable t)
    (hx : x ∈ t.lookup.map Prod.fst) :
    ((treeToVec t).map Node.id = rootIds t)
    ∧ (∃! r, r ∈ (treeToVec t).map Node.id ∧ Reaches t r x)
    ∧ (childOf t p x → ¬ Reaches t x p) := by
  have hI := reachable_inv hR
  refine ⟨treeToVec_ids hI, ?_, ?_⟩
  · obtain ⟨r, hr, hre⟩ := root_exists hI x.toNat x (le_refl _) hx
    refine ⟨r, ⟨?_, hre⟩, ?_⟩
    · rw [treeToVec_ids hI, mem_rootIds_iff]
      exact hr
    · rintro r' ⟨hr'mem, hr'e⟩
      rw [treeToVec_ids hI, mem_rootIds_iff] at hr'mem
      exact root_unique hI r' x hr'e hr'mem r hre hr
  · intro hco hre
    have h1 := childOf_lt hI p x hco
    have h2 := reaches_le hI hre
    omega

theorem root_partition_witness :
    ((treeToVec demoTree).map Node.id = rootIds demoTree)
    ∧ (∃! r, r ∈ (treeToVec demoTree).map Node.id ∧ Reaches demoTree r 2)
    ∧ (childOf demoTree 1 2 → ¬ Reaches demoTree 2 1) :=
  root_partition demoTree 2 1 (run_reachable _ Tree.default Reachable.init) (by decide)

/-- C6. Unknown parent rejection: in a reachable state, `add_node` with a
`parent_id` that is not a key of `lookup` (and is not the id that would be
assigned) fails with the unknown-parent error and leaves the state, hence
the forest size, unchanged. -/
theorem unknown_parent_rejected (t : Tree) (label : String) (pid : Int)
    (hR : Reachable t) (hne : pid ≠ t.next_id)
    (hno : alLookup t.lookup pid = none) :
    t.add_node label (some pid) = (t, Except.error (unknownParentError pid))
    ∧ (t.add_node label (some pid)).1.lenT = t.lenT := by
  have hI := reachable_inv hR
  have h := add_node_some_of_edge_err t label pid t _
    (add_edge_unknown t pid t.next_id hne hI.c2p_next_none hno)
  exact ⟨h, by rw [h]⟩

theorem unknown_parent_rejected_witness :
    (Tree.default.add_node "orphan" (some 999)
        = (Tree.default, Except.error (unknownParentError 999))
      ∧ (Tree.default.add_node "orphan" (some 999)).1.lenT = Tree.default.lenT)
    ∧ Tree.default.lenT = 0 :=
  ⟨unknown_parent_rejected Tree.default "orphan" 999 Reachable.init
      (by decide) (by rfl),
   by rfl⟩

/-- C7. Index consistency: in every reachable state and for all ids `c`,
`p`: `child_to_parent[c] = p` iff `c` appears in `parent_to_child[p]`, iff a
reference to `c` appears in the children list of the node registered at
`p`. -/
theorem index_consistency (t : Tree) (c p : Int) (hR : Reachable t) :
    (alLookup t.child_to_parent c = some p ↔
        c ∈ (alLookup t.parent_to_child p).getD [])
    ∧ (alLookup t.child_to_parent c = some p ↔
        ∃ nd, alLookup t.lookup p = some nd ∧ c ∈ nd.children) := by
  have hI := reachable_inv hR
  exact ⟨hI.c2p_p2c c p, (childOf_iff hI p c).symm⟩

theorem index_consistency_witness :
    (alLookup demoTree.child_to_parent 2 = some 1 ↔
        2 ∈ (alLookup demoTree.parent_to_child 1).getD [])
    ∧ (alLookup demoTree.child_to_parent 2 = some 1 ↔
        ∃ nd, alLookup demoTree.lookup 1 = some nd ∧ 2 ∈ nd.children) :=
  index_consistency demoTree 2 1 (run_reachable _ Tree.default Reachable.init)

/-- C8. Projection shape: the empty forest projects to `[]`; after
`("root", ∅)` then `("child", 1)` the projection is the single root
`{id 1, "root"}` with the single child `{id 2, "child", no children}`; after
a further `("child", 1)` the root has exactly the children 2 and 3 in
insertion order. -/
theorem projection_shape :
    getForest Tree.default 3 = []
    ∧ getForest (run Tree.default [⟨"root", none⟩, ⟨"child", some 1⟩]).1 3
        = [NestedNode.mk 1 "root" [NestedNode.mk 2 "child" []]]
    ∧ getForest
        (run Tree.default [⟨"root", none⟩, ⟨"child", some 1⟩, ⟨"child", some 1⟩]).1 3
        = [NestedNode.mk 1 "root"
            [NestedNode.mk 2 "child" [], NestedNode.mk 3 "child" []]] :=
  ⟨rfl, rfl, rfl⟩

/-- C9. The duplicate-parent branch of `add_edge` is unreachable through
`add_node`: in a reachable state the id about to be assigned has no entry in
`child_to_parent`, and consequently an `add_node` call can only fail with
the self-parent or the unknown-parent error, never the duplicate-parent
one. -/
theorem duplicate_branch_unreachable (t : Tree) (label : String) (p : Int)
    (e : AddNodeError) (hR : Reachable t) :
    alLookup t.child_to_parent t.next_id = none
    ∧ ((t.add_node label (some p)).2 = Except.error e →
        e = selfParentError p ∨ e = unknownParentError p) := by
  have hI := reachable_inv hR
  refine ⟨hI.c2p_next_none, ?_⟩
  intro h
  by_cases hpN : p = t.next_id
  · subst hpN
    rw [add_node_some_of_edge_err t label _ t _ (add_edge_self t t.next_id)] at h
    exact Or.inl (Except.error.inj h).symm
  · cases hp : alLookup t.lookup p with
    | none =>
        rw [add_node_some_of_edge_err t label p t _
          (add_edge_unknown t p t.next_id hpN hI.c2p_next_none hp)] at h
        exact Or.inr (Except.error.inj h).symm
    | some pnd =>
        have hps : (alLookup t.lookup p).isSome := by rw [hp]; rfl
        rw [add_node_some_of_edge_ok t label p _
          (add_edge_ok t p t.next_id hpN hI.c2p_next_none hps)] at h
        cases h

theorem duplicate_branch_unreachable_witness :
    alLookup Tree.default.child_to_parent Tree.default.next_id = none
    ∧ (unknownParentError 7 = selfParentError 7
        ∨ unknownParentError 7 = unknownParentError 7) :=
  ⟨(duplicate_branch_unreachable Tree.default "x" 7 (unknownParentError 7)
      Reachable.init).1,
   (duplicate_branch_unreachable Tree.default "x" 7 (unknownParentError 7)
      Reachable.init).2 (by rfl)⟩

/-- C10. Lookup key/id agreement: in every reachable state, the node
registered under a key has that key as its `id` field, `get_node` returns a
node whose id is the requested id, the size `len()` after any request
sequence equals the number of successful `add_node` calls, and the keys of
`lookup` are exactly `1 .. len()`. -/
theorem lookup_key_id_agreement (t : Tree) (reqs : List Request) (i : Int)
    (nd nd' : Node) (hR : Reachable t)
    (h1 : alLookup t.lookup i = some nd) (h2 : t.get_node i = some nd') :
    nd.id = i ∧ nd'.id = i
    ∧ (run Tree.default reqs).1.lenT = ((run Tree.default reqs).2.length : Int)
    ∧ t.lookup.map Prod.fst = intRange 1 t.lenT.toNat := by
  have hI := reachable_inv hR
  have h2' : alLookup t.lookup i = some nd' := by
    rw [← get_node_eq]
    exact h2
  refine ⟨hI.id_eq i nd h1, hI.id_eq i nd' h2', ?_, ?_⟩
  · have hRr : Reachable (run Tree.default reqs).1 :=
      run_reachable reqs Tree.default Reachable.init
    have hIr := reachable_inv hRr
    have hlen : ((run Tree.default reqs).1.lookup.map Prod.fst).length
        = ((run Tree.default reqs).1.next_id - 1).toNat := by
      rw [hIr.keys_eq, length_intRange]
    have hnp := hIr.next_pos
    have hnext := (run_ids reqs Tree.default).2
    simp only [Tree.lenT]
    have hd : Tree.default.next_id = 1 := rfl
    rw [hd] at hnext
    omega
  · have hlen : (t.lookup.map Prod.fst).length = (t.next_id - 1).toNat := by
      rw [hI.keys_eq, length_intRange]
    rw [hI.keys_eq]
    have hnp := hI.next_pos
    congr 1
    simp only [Tree.lenT]
    omega

theorem lookup_key_id_agreement_witness :
    (Node.mk 1 "root" [2]).id = 1 ∧ (Node.mk 1 "root" [2]).id = 1
    ∧ (run Tree.default demoReqs).1.lenT = ((run Tree.default demoReqs).2.length : Int)
    ∧ demoTree.lookup.map Prod.fst = intRange 1 demoTree.lenT.toNat :=
  lookup_key_id_agreement demoTree demoReqs 1 (Node.mk 1 "root" [2])
    (Node.mk 1 "root" [2]) (run_reachable _ Tree.default Reachable.init)
    (by rfl) (by rfl)

end TreeChallenge
